import Mathlib

/-!
Verification development for `models/var.py` (the VAR class: a multi-scale
autoregressive transformer wrapper).

Shallow embedding conventions:
* machine floats are modelled by `ℚ` (all arithmetic in the claims is exact);
* tensors are nested lists (`List ℚ`, `List (List ℚ)`, ...), batch dim outermost;
* the external collaborators (transformer blocks from `models/basic.py`, the
  sampling helpers from `models/helpers.py`, the VQ codebook from
  `models/vae.py`) are not under `src/`; they are abstract function fields of
  the model record, or, where a claim needs their semantics, modelled from the
  spec (marked `Modelled from the spec:`);
* Python fatal errors (`assert`, `ZeroDivisionError`, `IndexError`, shape
  mismatches) are modelled by `Except`/`Option` results.
-/

/-- Python-level fatal errors raised by `VAR.__init__`. -/
inductive PyErr
  | zeroDivisionError
  | assertionError
  | indexError
deriving DecidableEq, Repr

/-- Whether an `Except` computation succeeded. -/
def exceptOk {ε α : Type} : Except ε α → Bool
  | .ok _ => true
  | .error _ => false

/-- Pointwise update of one list entry, `l[i] = f l[i]` (in-place update of a
tensor entry). -/
def updAt {α : Type} (i : Nat) (f : α → α) : List α → List α
  | [] => []
  | a :: rest => match i with
    | 0 => f a :: rest
    | n + 1 => a :: updAt n f rest

/-- Elementwise addition of two vectors (broadcast additions in the source all
act on equal-length operands). -/
def vecAdd (a b : List ℚ) : List ℚ := List.zipWith (· + ·) a b

/-- `self.L = sum(pn ** 2 for pn in self.patch_nums)` (var.py line 44). -/
def sumPn2 (pns : List Nat) : Nat := (pns.map fun pn => pn ^ 2).sum

/-- The loop of var.py lines 46-50 generalised over the running offset `cur`:
for each `pn`, append `(cur, cur + pn ** 2)` and advance `cur` by `pn ** 2`. -/
def beginEndsFrom (cur : Nat) : List Nat → List (Nat × Nat)
  | [] => []
  | pn :: rest => (cur, cur + pn ^ 2) :: beginEndsFrom (cur + pn ^ 2) rest

/-- `self.begin_ends` computed by var.py lines 46-50 (offset starts at 0). -/
def begin_ends (pns : List Nat) : List (Nat × Nat) := beginEndsFrom 0 pns

/-- The comprehension of var.py line 121 generalised over the running stage
index: `[torch.full((pn*pn,), i) for i, pn in enumerate(patch_nums)]`. -/
def lvlSegs (i : Nat) : List Nat → List (List Nat)
  | [] => []
  | pn :: rest => List.replicate (pn * pn) i :: lvlSegs (i + 1) rest

/-- The flattened level-index buffer `lvl_1L` of var.py lines 121-124: global
position `p` is mapped to the index of the stage containing `p`. -/
def lvl_1L (pns : List Nat) : List Nat := (lvlSegs 0 pns).flatten

/-- An entry of the additive attention bias: `0.` or `-torch.inf`. -/
inductive BiasVal
  | zero
  | negInf
deriving DecidableEq, Repr

/-- The `L × L` core of var.py line 125: entry `(p, q)` is
`torch.where(d >= dT, 0., -inf)`, i.e. `0` iff `lvl[p] >= lvl[q]`. -/
def attn_bias_mat (pns : List Nat) : List (List BiasVal) :=
  (lvl_1L pns).map fun dp =>
    (lvl_1L pns).map fun dq => if dq ≤ dp then BiasVal.zero else BiasVal.negInf

/-- `self.attn_bias_for_masking`, reshaped to `(1, 1, L, L)` (var.py lines
125-126). -/
def attn_bias_for_masking (pns : List Nat) : List (List (List (List BiasVal))) :=
  [[attn_bias_mat pns]]

/-- The derived bookkeeping state computed by `VAR.__init__` (var.py lines
43-52 and 121-126) that the claims are about. -/
structure VARInit where
  L : Nat
  first_l : Nat
  begin_ends : List (Nat × Nat)
  num_stages_minus_1 : Nat
  lvl_1L : List Nat
  attn_bias_for_masking : List (List (List (List BiasVal)))
deriving Repr

/-- `VAR.__init__` restricted to the argument-validation and derived state the
claims touch.  Python evaluation order of the fatal errors:
line 33 `assert embed_dim % num_heads == 0` (a `ZeroDivisionError` when
`num_heads == 0`, an `AssertionError` when the remainder is nonzero), then
line 45 `self.patch_nums[0]` (an `IndexError` on an empty tuple).  No other
construction-time check constrains the arguments modelled here; in particular
the constructor never inspects the ordering of `patch_nums`. -/
def mkVAR (embed_dim num_heads : Nat) (patch_nums : List Nat) : Except PyErr VARInit :=
  if num_heads = 0 then .error .zeroDivisionError
  else if embed_dim % num_heads ≠ 0 then .error .assertionError
  else match patch_nums with
    | [] => .error .indexError
    | pn0 :: rest =>
      .ok ⟨sumPn2 (pn0 :: rest), pn0 ^ 2, begin_ends (pn0 :: rest),
        (pn0 :: rest).length - 1, lvl_1L (pn0 :: rest),
        attn_bias_for_masking (pn0 :: rest)⟩

/-- Batch of per-batch-element vectors (e.g. conditioning vectors). -/
abbrev Ten2 := List (List ℚ)

/-- Batch × positions × channels tensor (token maps, logits). -/
abbrev Ten3 := List (List (List ℚ))

/-- Batch × channels × height × width tensor (spatial feature maps). -/
abbrev Ten4 := List (List (List (List ℚ)))

/-- Random-generator state (`torch.Generator`), threaded explicitly. -/
abbrev Rng := Nat

/-- Modelled from the spec: the per-block attention key/value cache of
`models/basic.py` (not under `src/`): a boolean caching flag plus the cached
per-position state. -/
structure AttnCache where
  caching : Bool
  cached_kv : List (List ℚ)
deriving DecidableEq, Repr

/-- Modelled from the spec: `attn.kv_caching(enable)` of `models/basic.py`
(not under `src/`): switching the flag clears any cached state, so disabling
caching after the stage loop both disables and clears the cache. -/
def kv_caching (enable : Bool) (_c : AttnCache) : AttnCache := ⟨enable, []⟩

/-- One transformer block (`AdaLNSABlock`/`SABlock` of `models/basic.py`, not
under `src/`): abstracted as a function of the cache state, the token map, the
conditioning input and an optional attention bias, returning an updated token
map and cache state. -/
structure Block where
  fwd : AttnCache → Ten3 → Ten2 →
    Option (List (List (List (List BiasVal)))) → Ten3 × AttnCache

/-- The `VAR` module: learned parameters and the external collaborators
(`models/basic.py`, `models/helpers.py`, `models/vae.py` are not under `src/`,
so they appear as abstract function fields). -/
structure VarModel where
  num_classes : Nat
  Cvae : Nat
  V : Nat
  patch_nums : List Nat
  cond_drop_rate : ℚ
  prog_si : Int
  class_emb : Nat → List ℚ
  pos_start : Ten2
  pos_1LC : Ten2
  lvl_embed : Nat → List ℚ
  word_embed : List ℚ → List ℚ
  word_embed_w00 : ℚ
  word_embed_b0 : ℚ
  shared_ada_lin : Ten2 → Ten2
  blocks : List Block
  head_nm : Ten3 → Ten2 → Ten3
  head : List ℚ → List ℚ
  manual_seed : Nat → Rng
  multinomial_sel : Nat → Rng → List Nat × Rng
  sample_with_top_k_top_p_ : Ten3 → Nat → ℚ → Rng → List (List Nat) × Rng
  gumbel_softmax_with_rng : Ten3 → ℚ → Rng → Ten3 × Rng
  vae_embedding : Nat → List ℚ
  get_next_autoregressive_input : Nat → Nat → Ten4 → Ten4 → Ten4 × Ten4

/-- `self.L` (var.py line 44). -/
def VarModel.L (m : VarModel) : Nat := sumPn2 m.patch_nums

/-- `self.first_l = patch_nums[0] ** 2` (var.py line 45). -/
def VarModel.first_l (m : VarModel) : Nat := m.patch_nums.headD 0 ^ 2

/-- `self.num_stages_minus_1` (var.py line 52). -/
def VarModel.num_stages_minus_1 (m : VarModel) : Nat := m.patch_nums.length - 1

/-- `VAR.get_logits` (var.py lines 136-142).  The blocks of this embedding
return plain token maps, so only the `isinstance(h, Tensor)` branch occurs:
`head(head_nm(h, cond_BD)).mul(1/tau)`. -/
def get_logits (m : VarModel) (h : Ten3) (cond_BD : Ten2) (tau : ℚ) : Ten3 :=
  ((m.head_nm h cond_BD).map fun posrow => posrow.map m.head).map
    fun posrow => posrow.map fun pv => pv.map fun x => x * (1 / tau)

/-- The classifier-free-guidance merge of var.py line 193:
`(1+t) * logits_BlV[:B] - t * logits_BlV[B:]`. -/
def cfg_merge (t : ℚ) (B : Nat) (lg : Ten3) : Ten3 :=
  List.zipWith
    (fun c u => List.zipWith
      (fun cr ur => List.zipWith (fun x y => (1 + t) * x - t * y) cr ur) c u)
    (lg.take B) (lg.drop B)

/-- The per-sample label replacement of var.py line 224:
`torch.where(torch.rand(B) < cond_drop_rate, num_classes, label_B)`,
`us` being the `B` uniform draws of `torch.rand(B)`. -/
def drop_labels (cond_drop_rate : ℚ) (num_classes : Nat) (us : List ℚ)
    (label_B : List Nat) : List Nat :=
  List.zipWith (fun u l => if u < cond_drop_rate then num_classes else l) us label_B

/-- Label resolution of var.py lines 166-169: `None` means sample labels from
`selecting_idx`; a negative int is silently replaced by `num_classes`; a
non-negative int is broadcast; a tensor is used as given. -/
def resolve_label (m : VarModel) (B : Nat) (rng : Rng) :
    Option (Int ⊕ List Nat) → List Nat × Rng
  | none => m.multinomial_sel B rng
  | some (.inl z) => (List.replicate B (if z < 0 then m.num_classes else z.toNat), rng)
  | some (.inr ls) => (ls, rng)

/-- The doubled class-embedding input of var.py line 171:
`torch.cat((label_B, torch.full_like(label_B, num_classes)))`. -/
def cfg_cond_input (num_classes : Nat) (label_vec : List Nat) : List Nat :=
  label_vec ++ List.replicate label_vec.length num_classes

/-- Run the token map through the block list (`for b in self.blocks: x = b(...)`,
var.py lines 188-189 / 244-245), threading each block's cache state. -/
def run_blocks : List Block → List AttnCache → Ten3 → Ten2 →
    Option (List (List (List (List BiasVal)))) → Ten3 × List AttnCache
  | [], cs, x, _, _ => (x, cs)
  | _ :: _, [], x, _, _ => (x, [])
  | b :: bs, c :: cs, x, cond, bias =>
    let r := b.fwd c x cond bias
    let rest := run_blocks bs cs r.1 cond bias
    (rest.1, r.2 :: rest.2)

/-- One per-stage output appended to `ret` (var.py line 204): either the
spatial feature patch `h_BChw` or the sampled indices `idx_Bl`. -/
inductive StageOut
  | vemb (h : Ten4)
  | idx (i : List (List Nat))
deriving DecidableEq, Repr

/-- Instrumentation record of one iteration of the stage loop: the stage index,
the guidance ratio `t = cfg * ratio` (var.py line 192), the raw two-half logits
of line 190 and the merged logits of line 193 used for sampling. -/
structure StageTrace where
  si : Nat
  t : ℚ
  raw_logits : Ten3
  merged_logits : Ten3
deriving DecidableEq, Repr

/-- The mutable state threaded through the stage loop of var.py lines 176-210,
plus the `trace` instrumentation. -/
structure LoopState where
  cur_L : Nat
  ret : List StageOut
  f_hat : Ten4
  cur_token_map : Ten3
  rng : Rng
  caches : List AttnCache
  trace : List StageTrace

/-- Arguments of `autoregressive_infer_cfg` (var.py lines 145-148).  `label_B`
is `None`, an int, or a label tensor. -/
structure InferArgs where
  B : Nat
  label_B : Option (Int ⊕ List Nat)
  g_seed : Option Nat
  cfg : ℚ
  top_k : Nat
  top_p : ℚ
  returns_vemb : Bool
  gumbel : ℚ
  tau : ℚ

/-- Split a flat list into consecutive chunks of size `n` (fuel recursion;
models `reshape` of a length-`pn*pn` axis to `(pn, pn)`). -/
def chunkFuel {α : Type} : Nat → Nat → List α → List (List α)
  | 0, _, _ => []
  | _ + 1, _, [] => []
  | fuel + 1, n, l => l.take n :: chunkFuel fuel n (l.drop n)

/-- `reshape` of a flat axis into rows of length `n`. -/
def chunkList {α : Type} (n : Nat) (l : List α) : List (List α) :=
  chunkFuel l.length n l

/-- `torch.zeros(a, b, c, d)`. -/
def zeros4 (a b c d : Nat) : Ten4 :=
  List.replicate a (List.replicate b (List.replicate c (List.replicate d (0 : ℚ))))

/-- Dot product of two equal-length vectors. -/
def dotQ (a b : List ℚ) : ℚ := (List.zipWith (· * ·) a b).sum

/-- Row-vector × matrix product (`soft_one_hot @ embedding.weight`). -/
def rowMatMul (row : List ℚ) (w : Ten2) : List ℚ :=
  (List.transpose w).map (dotQ row)

/-- The codebook weight matrix `vae_quant_proxy[0].embedding.weight`
(`V` rows, one per vocabulary entry). -/
def embWeight (m : VarModel) : Ten2 := (List.range m.V).map m.vae_embedding

/-- One iteration of the stage loop of `autoregressive_infer_cfg`
(var.py lines 180-210), for the enumerated stage `sipn = (si, pn)`. -/
def infer_step (m : VarModel) (a : InferArgs) (cond_BD : Ten2) (lvl_pos : Ten2)
    (st : LoopState) (sipn : Nat × Nat) : LoopState :=
  let si := sipn.1
  let pn := sipn.2
  let ratio_si : ℚ := (si : ℚ) / (m.num_stages_minus_1 : ℚ)      -- line 181
  let cur_L := st.cur_L + pn * pn                                 -- line 183
  let cond_BD_or_gss := m.shared_ada_lin cond_BD                  -- line 185
  let rb := run_blocks m.blocks st.caches st.cur_token_map cond_BD_or_gss none  -- lines 187-189
  let logits0 := get_logits m rb.1 cond_BD a.tau                  -- line 190
  let t := a.cfg * ratio_si                                       -- line 192
  let logits_BlV := cfg_merge t a.B logits0                       -- line 193
  let sk := m.sample_with_top_k_top_p_ logits_BlV a.top_k a.top_p st.rng        -- line 195
  let idx_Bl := sk.1
  let hr : Ten3 × Rng :=
    if a.gumbel = 0 then
      (idx_Bl.map fun posrow => posrow.map m.vae_embedding, sk.2)  -- line 197
    else
      let gum_t := max (27 / 100 * (1 - ratio_si * (95 / 100))) (5 / 1000)      -- line 200
      let gs := m.gumbel_softmax_with_rng
        (logits_BlV.map fun posrow => posrow.map fun pv =>
          pv.map fun x => x * (1 + ratio_si * a.gumbel)) gum_t sk.2             -- line 201
      (gs.1.map fun posrow => posrow.map fun pv => rowMatMul pv (embWeight m), gs.2)
  let h_BChw := hr.1.map fun bm => (List.transpose bm).map (chunkList pn)       -- line 203
  let ret := st.ret ++ [if a.returns_vemb then StageOut.vemb h_BChw else StageOut.idx idx_Bl]  -- line 204
  let fc : Ten4 × Ten3 :=
    if si ≠ m.num_stages_minus_1 then                             -- lines 206-210
      let nxt := m.get_next_autoregressive_input si m.patch_nums.length st.f_hat h_BChw
      let ntm := (nxt.2.map fun chs => chs.map List.flatten).map List.transpose -- line 208
      let ntm2 := ntm.map fun posrow => posrow.map m.word_embed
      let lvl_slice := (lvl_pos.drop cur_L).take (m.patch_nums.getD (si + 1) 0 ^ 2)
      let ntm3 := ntm2.map fun posrow => List.zipWith vecAdd posrow lvl_slice   -- line 209
      (nxt.1, ntm3 ++ ntm3)                                       -- line 210
    else (st.f_hat, st.cur_token_map)
  ⟨cur_L, ret, fc.1, fc.2, hr.2, rb.2,
    st.trace ++ [⟨si, t, logits0, logits_BlV⟩]⟩

/-- `VAR.autoregressive_infer_cfg` (var.py lines 144-213).  `ambient_rng` is
the state of the process-ambient random source used when no seed is supplied
(`generator=None` in torch); `caches0` is the incoming cache state of the
blocks.  Returns `(ret, final cache states, trace)`. -/
def autoregressive_infer_cfg (m : VarModel) (a : InferArgs) (ambient_rng : Rng)
    (caches0 : List AttnCache) : List StageOut × List AttnCache × List StageTrace :=
  let rng : Rng := match a.g_seed with                            -- lines 163-164
    | none => ambient_rng
    | some s => m.manual_seed s
  let lr := resolve_label m a.B rng a.label_B                     -- lines 166-169
  let cond_BD := (cfg_cond_input m.num_classes lr.1).map m.class_emb  -- line 171 (sos = cond_BD)
  let lvl_pos := List.zipWith vecAdd ((lvl_1L m.patch_nums).map m.lvl_embed) m.pos_1LC  -- line 173
  let cur_token_map := cond_BD.map fun s =>
    List.zipWith vecAdd (List.zipWith vecAdd (List.replicate m.first_l s) m.pos_start)
      (lvl_pos.take m.first_l)                                    -- line 174
  let f_hat := zeros4 a.B m.Cvae (m.patch_nums.getLastD 0) (m.patch_nums.getLastD 0)  -- line 177
  let caches1 := caches0.map (kv_caching true)                    -- line 179
  let st0 : LoopState := ⟨0, [], f_hat, cur_token_map, lr.2, caches1, []⟩
  let stF := m.patch_nums.enum.foldl (infer_step m a cond_BD lvl_pos) st0  -- lines 180-210
  (stF.ret, stF.caches.map (kv_caching false), stF.trace)         -- lines 212-213

/-- Result of a teacher-forcing `forward` call: the logits, the attention-bias
slice actually handed to the blocks (var.py line 232), and the block cache
states after the call. -/
structure ForwardOut where
  logits : Ten3
  attn_bias_used : List (List (List (List BiasVal)))
  caches : List AttnCache

/-- The `(bg, ed)` resolution of var.py line 221:
`begin_ends[prog_si] if prog_si >= 0 else (0, L)` (an out-of-range `prog_si`
is a fatal `IndexError`). -/
def forward_ed (m : VarModel) : Option (Nat × Nat) :=
  if 0 ≤ m.prog_si then (begin_ends m.patch_nums)[m.prog_si.toNat]?
  else some (0, m.L)

/-- The conditioning batch of var.py lines 224-225: class embeddings of the
dropout-adjusted labels (`us` is the vector of `B` uniform draws of
`torch.rand(B)`). -/
def fw_cond_BD (m : VarModel) (us : List ℚ) (label_B : List Nat) : Ten2 :=
  (drop_labels m.cond_drop_rate m.num_classes us label_B).map m.class_emb

/-- The start token map of var.py line 226:
`sos.unsqueeze(1).expand(B, first_l, -1) + pos_start.expand(B, first_l, -1)`. -/
def fw_sos (m : VarModel) (us : List ℚ) (label_B : List Nat) : Ten3 :=
  (fw_cond_BD m us label_B).map fun s =>
    List.zipWith vecAdd (List.replicate m.first_l s) m.pos_start

/-- The training token map before positional embeddings, var.py lines 228-229:
the seed alone when `prog_si == 0`, else the seed concatenated with the
word-embedded teacher features. -/
def fw_xBLC (m : VarModel) (us : List ℚ) (label_B : List Nat) (x : Ten3) : Ten3 :=
  if m.prog_si = 0 then fw_sos m us label_B
  else List.zipWith (fun srow xrow => srow ++ xrow.map m.word_embed)
    (fw_sos m us label_B) x

/-- The positional/level addend of var.py line 230:
`lvl_embed(lvl_1L[:, :ed]) + pos_1LC[:, :ed]`. -/
def fw_addend (m : VarModel) (ed : Nat) : Ten2 :=
  List.zipWith vecAdd (((lvl_1L m.patch_nums).take ed).map m.lvl_embed)
    (m.pos_1LC.take ed)

/-- The token map after the `+=` of var.py line 230. -/
def fw_x1 (m : VarModel) (us : List ℚ) (label_B : List Nat) (x : Ten3)
    (ed : Nat) : Ten3 :=
  (fw_xBLC m us label_B x).map fun row => List.zipWith vecAdd row (fw_addend m ed)

/-- The attention-bias slice of var.py line 232:
`attn_bias_for_masking[:, :, :ed, :ed]`. -/
def fw_bias (m : VarModel) (ed : Nat) : List (List (List (List BiasVal))) :=
  (attn_bias_for_masking m.patch_nums).map fun o1 =>
    o1.map fun mat => (mat.take ed).map fun r2 => r2.take ed

/-- `VAR.forward` without the keep-alive addition (var.py lines 215-246).
`us` is the vector of `B` uniform draws of `torch.rand(B)` on line 224.
Shape requirements of the broadcasts (label length, the `+=` of line 230) are
fatal when violated, modelled as `none`.  The dtype bookkeeping of lines
235-241 is numerically the identity and has no counterpart here.
`word_embed` is the `nn.Linear` installed on line 58. -/
def forward_core (m : VarModel) (label_B : List Nat) (us : List ℚ)
    (x_BLCv_wo_first_l : Ten3) (caches0 : List AttnCache) : Option ForwardOut :=
  match forward_ed m with                                         -- line 221
  | none => none
  | some be =>
    let ed := be.2
    if us.length = x_BLCv_wo_first_l.length ∧
        label_B.length = x_BLCv_wo_first_l.length then            -- line 222 broadcasts
      if (fw_xBLC m us label_B x_BLCv_wo_first_l).all
          fun row => row.length = ed then                         -- line 230 shape check
        let rb := run_blocks m.blocks caches0
          (fw_x1 m us label_B x_BLCv_wo_first_l ed)
          (m.shared_ada_lin (fw_cond_BD m us label_B))
          (some (fw_bias m ed))                                   -- lines 232-245
        some ⟨get_logits m rb.1 (fw_cond_BD m us label_B) 1,
          fw_bias m ed, rb.2⟩                                     -- line 246
      else none
    else none

/-- The keep-alive addition of var.py lines 248-250 (the `nn.Linear` branch):
`x_BLC[0, 0, 0] += word_embed.weight[0, 0] * 0 + word_embed.bias[0] * 0`. -/
def keepalive_add (m : VarModel) (logits : Ten3) : Ten3 :=
  updAt 0 (updAt 0 (updAt 0
    fun z => z + (m.word_embed_w00 * 0 + m.word_embed_b0 * 0))) logits

/-- `VAR.forward` (var.py lines 215-257): `forward_core` followed by the
keep-alive addition when `prog_si == 0`. -/
def VarModel.forward (m : VarModel) (label_B : List Nat) (us : List ℚ)
    (x_BLCv_wo_first_l : Ten3) (caches0 : List AttnCache) : Option ForwardOut :=
  (forward_core m label_B us x_BLCv_wo_first_l caches0).map fun out =>
    if m.prog_si = 0 then
      ⟨keepalive_add m out.logits, out.attn_bias_used, out.caches⟩
    else out

/-- A concrete instantiation of the abstract collaborators, used to exercise
the theorems on closed inputs: one identity block, identity head layers, a
two-stage pyramid `(1, 2)`. -/
def testModel : VarModel where
  num_classes := 3
  Cvae := 1
  V := 2
  patch_nums := [1, 2]
  cond_drop_rate := 1 / 10
  prog_si := 0
  class_emb := fun i => [(i : ℚ)]
  pos_start := [[0]]
  pos_1LC := [[0], [0], [0], [0], [0]]
  lvl_embed := fun i => [(i : ℚ)]
  word_embed := fun v => v
  word_embed_w00 := 5
  word_embed_b0 := 7
  shared_ada_lin := fun c => c
  blocks := [⟨fun c x _ _ => (x, c)⟩]
  head_nm := fun h _ => h
  head := fun _ => [0, 0]
  manual_seed := fun s => s
  multinomial_sel := fun B r => (List.replicate B 0, r)
  sample_with_top_k_top_p_ := fun lg _ _ r => (lg.map fun posrow => posrow.map fun _ => 0, r)
  gumbel_softmax_with_rng := fun lg _ r => (lg, r)
  vae_embedding := fun _ => [0]
  get_next_autoregressive_input := fun _ _ f h => (f, h)

/-- A variant of `testModel` with progressive training off (`prog_si = -1`). -/
def testModelFull : VarModel :=
  { testModel with prog_si := -1 }

/-- Default arguments for a generation call on the test model. -/
def testArgs : InferArgs where
  B := 1
  label_B := some (.inl (-2))
  g_seed := some 7
  cfg := 3 / 2
  top_k := 0
  top_p := 0
  returns_vemb := false
  gumbel := 0
  tau := 1

/-- A block function preserves the batch and position dimensions of the token
map (spec 4.4: each block consumes a token map and returns an updated token
map of the same shape). -/
def DimPreserving (f : AttnCache → Ten3 → Ten2 →
    Option (List (List (List (List BiasVal)))) → Ten3 × AttnCache) : Prop :=
  ∀ c x cond bias, ((f c x cond bias).1).length = x.length ∧
    ∀ j, (((f c x cond bias).1).getD j []).length = (x.getD j []).length

/-- The head normalisation preserves the batch and position dimensions
(spec 4.5). -/
def HeadNmDimPreserving (m : VarModel) : Prop :=
  ∀ h cond, (m.head_nm h cond).length = h.length ∧
    ∀ j, ((m.head_nm h cond).getD j []).length = (h.getD j []).length

/-- The head projection produces one logit per vocabulary entry (spec 4.5). -/
def HeadWidth (m : VarModel) : Prop := ∀ v, (m.head v).length = m.V

theorem sumPn2_nil : sumPn2 [] = 0 := rfl

theorem sumPn2_cons (pn : Nat) (rest : List Nat) :
    sumPn2 (pn :: rest) = pn ^ 2 + sumPn2 rest := by
  simp [sumPn2]

theorem sumPn2_append (a b : List Nat) :
    sumPn2 (a ++ b) = sumPn2 a + sumPn2 b := by
  simp [sumPn2]

theorem sumPn2_take_succ (pns : List Nat) (i : Nat) (h : i < pns.length) :
    sumPn2 (pns.take (i + 1)) = sumPn2 (pns.take i) + pns.getD i 0 ^ 2 := by
  rw [List.take_succ]
  have hg : pns[i]? = some (pns.getD i 0) := by
    rw [List.getD_eq_getElem pns 0 h]
    exact List.getElem?_eq_getElem h
  rw [hg]
  simp [sumPn2_append, sumPn2]

theorem beginEndsFrom_length (pns : List Nat) : ∀ c : Nat,
    (beginEndsFrom c pns).length = pns.length := by
  induction pns with
  | nil => intro c; rfl
  | cons pn rest ih => intro c; simp [beginEndsFrom, ih]

theorem beginEndsFrom_getD (pns : List Nat) : ∀ c i : Nat, i < pns.length →
    (beginEndsFrom c pns).getD i (0, 0) =
      (c + sumPn2 (pns.take i), c + sumPn2 (pns.take (i + 1))) := by
  induction pns with
  | nil => intro c i h; simp at h
  | cons pn rest ih =>
    intro c i h
    cases i with
    | zero => simp [beginEndsFrom, sumPn2_cons, sumPn2_nil]
    | succ j =>
      have hj : j < rest.length := by simpa using h
      have := ih (c + pn ^ 2) j hj
      simp only [beginEndsFrom, List.getD_cons_succ, this, List.take_succ_cons,
        sumPn2_cons]
      simp [Nat.add_assoc]

theorem begin_ends_length (pns : List Nat) :
    (begin_ends pns).length = pns.length := beginEndsFrom_length pns 0

theorem begin_ends_getD (pns : List Nat) (i : Nat) (h : i < pns.length) :
    (begin_ends pns).getD i (0, 0) =
      (sumPn2 (pns.take i), sumPn2 (pns.take (i + 1))) := by
  simpa using beginEndsFrom_getD pns 0 i h

theorem lvlSegs_flatten_length (pns : List Nat) : ∀ k : Nat,
    ((lvlSegs k pns).flatten).length = sumPn2 pns := by
  induction pns with
  | nil => intro k; rfl
  | cons pn rest ih =>
    intro k
    simp [lvlSegs, ih, sumPn2_cons, sq, Nat.pow_two]

theorem lvl_1L_length (pns : List Nat) : (lvl_1L pns).length = sumPn2 pns :=
  lvlSegs_flatten_length pns 0


theorem lvlSegs_flatten_getD (pns : List Nat) : ∀ k i p : Nat,
    i < pns.length → sumPn2 (pns.take i) ≤ p → p < sumPn2 (pns.take (i + 1)) →
    ((lvlSegs k pns).flatten).getD p 0 = k + i := by
  induction pns with
  | nil => intro k i p h; simp at h
  | cons pn rest ih =>
    intro k i p hi hlo hhi
    cases i with
    | zero =>
      have hp : p < pn * pn := by
        have h1 : sumPn2 ((pn :: rest).take 1) = pn ^ 2 := by simp [sumPn2]
        rw [h1] at hhi
        calc p < pn ^ 2 := hhi
          _ = pn * pn := sq pn
      have hlt : p < (List.replicate (pn * pn) k).length := by simpa using hp
      simp only [lvlSegs, List.flatten_cons]
      rw [List.getD_append _ _ _ _ hlt]
      rw [List.getD_eq_getElem _ _ hlt]
      simp
    | succ j =>
      have hj : j < rest.length := by simpa using hi
      rw [List.take_succ_cons, sumPn2_cons] at hlo
      rw [List.take_succ_cons, sumPn2_cons] at hhi
      have hpn : pn ^ 2 ≤ p := le_trans (Nat.le_add_right _ _) hlo
      have hlen : (List.replicate (pn * pn) k).length ≤ p := by
        simpa [← sq] using hpn
      simp only [lvlSegs, List.flatten_cons]
      rw [List.getD_append_right _ _ _ _ hlen]
      have hrec := ih (k + 1) j (p - pn * pn) hj (by
          have : pn * pn = pn ^ 2 := (sq pn).symm
          omega)
        (by
          have : pn * pn = pn ^ 2 := (sq pn).symm
          omega)
      simp only [List.length_replicate]
      rw [hrec]
      omega

theorem lvl_1L_getD (pns : List Nat) (i p : Nat) (hi : i < pns.length)
    (hlo : sumPn2 (pns.take i) ≤ p) (hhi : p < sumPn2 (pns.take (i + 1))) :
    (lvl_1L pns).getD p 0 = i := by
  simpa using lvlSegs_flatten_getD pns 0 i p hi hlo hhi

theorem exists_stage (pns : List Nat) : ∀ p : Nat, p < sumPn2 pns →
    ∃ i, i < pns.length ∧ sumPn2 (pns.take i) ≤ p ∧ p < sumPn2 (pns.take (i + 1)) := by
  induction pns with
  | nil => intro p h; simp [sumPn2] at h
  | cons pn rest ih =>
    intro p hp
    rw [sumPn2_cons] at hp
    by_cases hc : p < pn ^ 2
    · exact ⟨0, by simp, by simp [sumPn2], by simpa [sumPn2] using hc⟩
    · obtain ⟨i, hi, hlo, hhi⟩ := ih (p - pn ^ 2) (by omega)
      refine ⟨i + 1, by simpa using hi, ?_, ?_⟩
      · rw [List.take_succ_cons, sumPn2_cons]; omega
      · rw [List.take_succ_cons, sumPn2_cons]; omega

theorem mkVAR_ok (ed nh : Nat) (pns : List Nat) (init : VARInit)
    (hok : mkVAR ed nh pns = .ok init) :
    init = ⟨sumPn2 pns, pns.getD 0 0 ^ 2, begin_ends pns, pns.length - 1,
      lvl_1L pns, attn_bias_for_masking pns⟩ := by
  unfold mkVAR at hok
  split at hok
  · exact absurd hok (by simp)
  · split at hok
    · exact absurd hok (by simp)
    · cases pns with
      | nil => exact absurd hok (by simp)
      | cons pn0 rest =>
        injection hok with h
        simp [← h]

/-- Claim C4: for every stage resolution list, the constructor's `L` is
`Σ pn²` and `first_l = patch_nums[0]²`; `begin_ends` partitions `[0, L)`
contiguously (first begin is `0`, each begin continues the previous end, each
range has size `pn_i²`, the last end is `L`); and the level-index buffer
`lvl_1L` maps exactly the positions of `[begin_i, end_i)` to stage `i`. -/
theorem C4_stage_partition (pns : List Nat) (hne : pns ≠ []) :
    (∀ ed nh init, mkVAR ed nh pns = .ok init →
      init.L = sumPn2 pns ∧ init.first_l = pns.getD 0 0 ^ 2 ∧
      init.begin_ends = begin_ends pns ∧ init.lvl_1L = lvl_1L pns) ∧
    (begin_ends pns).length = pns.length ∧
    ((begin_ends pns).getD 0 (0, 0)).1 = 0 ∧
    (∀ i, i + 1 < pns.length →
      ((begin_ends pns).getD (i + 1) (0, 0)).1 = ((begin_ends pns).getD i (0, 0)).2) ∧
    (∀ i, i < pns.length →
      ((begin_ends pns).getD i (0, 0)).2 =
        ((begin_ends pns).getD i (0, 0)).1 + pns.getD i 0 ^ 2) ∧
    ((begin_ends pns).getD (pns.length - 1) (0, 0)).2 = sumPn2 pns ∧
    (lvl_1L pns).length = sumPn2 pns ∧
    (∀ p i, p < sumPn2 pns → i < pns.length →
      ((lvl_1L pns).getD p 0 = i ↔
        ((begin_ends pns).getD i (0, 0)).1 ≤ p ∧
          p < ((begin_ends pns).getD i (0, 0)).2)) := by
  have hlen : 0 < pns.length := List.length_pos.mpr hne
  refine ⟨?_, begin_ends_length pns, ?_, ?_, ?_, ?_, lvl_1L_length pns, ?_⟩
  · intro ed nh init hok
    rw [mkVAR_ok ed nh pns init hok]
    exact ⟨rfl, rfl, rfl, rfl⟩
  · rw [begin_ends_getD pns 0 hlen]
    simp [sumPn2]
  · intro i hi
    rw [begin_ends_getD pns (i + 1) hi, begin_ends_getD pns i (by omega)]
  · intro i hi
    rw [begin_ends_getD pns i hi]
    exact sumPn2_take_succ pns i hi
  · rw [begin_ends_getD pns (pns.length - 1) (by omega)]
    have h1 : pns.length - 1 + 1 = pns.length := by omega
    rw [h1, List.take_length]
  · intro p i hp hi
    rw [begin_ends_getD pns i hi]
    constructor
    · intro hv
      obtain ⟨i0, hi0, hlo0, hhi0⟩ := exists_stage pns p hp
      have := lvl_1L_getD pns i0 p hi0 hlo0 hhi0
      rw [this] at hv
      subst hv
      exact ⟨hlo0, hhi0⟩
    · intro ⟨hlo, hhi⟩
      exact lvl_1L_getD pns i p hi hlo hhi

/-- Claim C4 witness: on the pyramid `(1, 2)`, global position `3` belongs to
stage `1` and the partition brackets agree. -/
theorem C4_witness :
    (lvl_1L [1, 2]).getD 3 0 = 1 ↔
      ((begin_ends [1, 2]).getD 1 (0, 0)).1 ≤ 3 ∧
        3 < ((begin_ends [1, 2]).getD 1 (0, 0)).2 :=
  (C4_stage_partition [1, 2] (by decide)).2.2.2.2.2.2.2 3 1 (by decide) (by decide)

/-- Claim C3: the construction-time buffer `attn_bias_for_masking` has shape
`(1, 1, L, L)` and its `(p, q)` entry is `0` when `stage(q) ≤ stage(p)`
(stage given by the level-index buffer `lvl_1L`) and `−∞` otherwise; the
buffer is a pure function of the stage configuration, fixed at construction
(`mkVAR`), and no later operation of this development produces a model, so no
later operation can modify it. -/
theorem C3_attn_bias_buffer (pns : List Nat) :
    (∀ ed nh init, mkVAR ed nh pns = .ok init →
      init.attn_bias_for_masking = attn_bias_for_masking pns) ∧
    (attn_bias_for_masking pns).length = 1 ∧
    ((attn_bias_for_masking pns).getD 0 []).length = 1 ∧
    ((attn_bias_for_masking pns).getD 0 []).getD 0 [] = attn_bias_mat pns ∧
    (attn_bias_mat pns).length = sumPn2 pns ∧
    (∀ row ∈ attn_bias_mat pns, row.length = sumPn2 pns) ∧
    (∀ p q, p < sumPn2 pns → q < sumPn2 pns →
      ((attn_bias_mat pns).getD p []).getD q BiasVal.negInf =
        if (lvl_1L pns).getD q 0 ≤ (lvl_1L pns).getD p 0 then BiasVal.zero
        else BiasVal.negInf) := by
  refine ⟨?_, rfl, rfl, rfl, ?_, ?_, ?_⟩
  · intro ed nh init hok
    rw [mkVAR_ok ed nh pns init hok]
  · simp [attn_bias_mat, lvl_1L_length]
  · intro row hrow
    simp only [attn_bias_mat] at hrow
    obtain ⟨dp, _, hr⟩ := List.mem_map.mp hrow
    rw [← hr]
    simp [lvl_1L_length]
  · intro p q hp hq
    have hp' : p < (lvl_1L pns).length := by rw [lvl_1L_length]; exact hp
    have hq' : q < (lvl_1L pns).length := by rw [lvl_1L_length]; exact hq
    have hpm : p < (attn_bias_mat pns).length := by
      simpa [attn_bias_mat] using hp'
    rw [List.getD_eq_getElem _ _ hpm]
    simp only [attn_bias_mat, List.getElem_map]
    have hqm : q < ((lvl_1L pns).map fun dq =>
        if dq ≤ (lvl_1L pns)[p] then BiasVal.zero else BiasVal.negInf).length := by
      simpa using hq'
    rw [List.getD_eq_getElem _ _ hqm]
    simp only [List.getElem_map]
    rw [List.getD_eq_getElem _ _ hp', List.getD_eq_getElem _ _ hq']

/-- Claim C3 witness: on the pyramid `(1, 2)`, the entry at `(p, q) = (1, 0)`
(stage 1 attending to stage 0) is `0`. -/
theorem C3_witness :
    ((attn_bias_mat [1, 2]).getD 1 []).getD 0 BiasVal.negInf =
      if (lvl_1L [1, 2]).getD 0 0 ≤ (lvl_1L [1, 2]).getD 1 0 then BiasVal.zero
      else BiasVal.negInf :=
  (C3_attn_bias_buffer [1, 2]).2.2.2.2.2.2 1 0 (by decide) (by decide)

/-- Claim C7 counterexample: the stage list `(2, 1)` is not monotonically
non-decreasing, yet construction with a divisible width/head pair succeeds —
the constructor never checks monotonicity. -/
theorem C7_counterexample_nonmonotone :
    ¬ List.Chain' (· ≤ ·) [2, 1] ∧ exceptOk (mkVAR 16 4 [2, 1]) = true := by
  constructor
  · norm_num [List.chain'_cons]
  · rfl

/-- Claim C7 (amended): with a positive head count and a nonempty stage list,
construction fails exactly when the hidden width is not divisible by the head
count; the monotonicity of the stage list is never checked, so non-monotone
stage lists are accepted. -/
theorem C7_construction_check (ed nh : Nat) (pns : List Nat)
    (hnh : nh ≠ 0) (hne : pns ≠ []) :
    exceptOk (mkVAR ed nh pns) = true ↔ ed % nh = 0 := by
  unfold mkVAR
  rcases pns with _ | ⟨pn0, rest⟩
  · exact absurd rfl hne
  · by_cases hd : ed % nh = 0
    · simp [hnh, hd, exceptOk]
    · simp [hnh, hd, exceptOk]

/-- Claim C7 witness: `embed_dim = 16`, `num_heads = 4`, stage list `(2, 1)`:
construction succeeds iff `16 % 4 = 0`. -/
theorem C7_witness : exceptOk (mkVAR 16 4 [2, 1]) = true ↔ 16 % 4 = 0 :=
  C7_construction_check 16 4 [2, 1] (by decide) (by decide)

theorem keepalive_add_eq (m : VarModel) (lg : Ten3) : keepalive_add m lg = lg := by
  unfold keepalive_add
  cases lg with
  | nil => rfl
  | cons b rest =>
    simp only [updAt]
    congr 1
    cases b with
    | nil => rfl
    | cons r rrest =>
      simp only [updAt]
      congr 1
      cases r with
      | nil => rfl
      | cons z zrest =>
        simp only [updAt]
        congr 1
        ring

/-- Claim C8: with `prog_si = 0`, the keep-alive addition of var.py lines
248-256 (adding `weight[0,0] * 0 + bias[0] * 0` to `logits[0,0,0]`) is
numerically inert: `forward` returns exactly the output of the same
computation without the addition (`forward_core`).  Parameter finiteness is
automatic in the exact-arithmetic embedding. -/
theorem C8_keepalive_inert (m : VarModel) (label_B : List Nat) (us : List ℚ)
    (x : Ten3) (caches0 : List AttnCache) (h0 : m.prog_si = 0) :
    m.forward label_B us x caches0 = forward_core m label_B us x caches0 := by
  unfold VarModel.forward
  simp [h0, keepalive_add_eq]

/-- Claim C8 witness: the identity holds on the concrete test model
(`prog_si = 0`). -/
theorem C8_witness :
    testModel.forward [0] [1] [[]] [⟨false, []⟩] =
      forward_core testModel [0] [1] [[]] [⟨false, []⟩] :=
  C8_keepalive_inert testModel [0] [1] [[]] [⟨false, []⟩] rfl

/-- Claim C9: in the teacher-forcing label dropout (var.py line 224), sample
`i`'s label is replaced by the unconditional index exactly when its own draw
`us[i]` falls below `cond_drop_rate`, and the decision for sample `i` depends
only on draw `i` (changing the other draws cannot change it) — per-sample
independent draws, not one per-batch draw. -/
theorem C9_per_sample_label_drop (rate : ℚ) (nc : Nat) (us : List ℚ)
    (labels : List Nat) (i : Nat) (hi : i < us.length) (hil : i < labels.length) :
    (drop_labels rate nc us labels).getD i 0 =
      (if us.getD i 0 < rate then nc else labels.getD i 0) ∧
    ∀ us2 : List ℚ, i < us2.length → us2.getD i 0 = us.getD i 0 →
      (drop_labels rate nc us2 labels).getD i 0 =
        (drop_labels rate nc us labels).getD i 0 := by
  have key : ∀ w : List ℚ, i < w.length →
      (drop_labels rate nc w labels).getD i 0 =
        (if w.getD i 0 < rate then nc else labels.getD i 0) := by
    intro w hw
    have hz : i < (List.zipWith (fun u l => if u < rate then nc else l) w labels).length := by
      rw [List.length_zipWith]
      omega
    unfold drop_labels
    rw [List.getD_eq_getElem _ _ hz]
    rw [List.getElem_zipWith]
    rw [List.getD_eq_getElem _ _ hw, List.getD_eq_getElem _ _ hil]
  refine ⟨key us hi, ?_⟩
  intro us2 h2 hagree
  rw [key us2 h2, key us hi, hagree]

/-- Claim C9 witness: with `rate = 1/10`, draws `(1/2, 1/20)` and labels
`(1, 2)`, sample 1 is dropped by its own draw. -/
theorem C9_witness :
    (drop_labels (1 / 10) 3 [1 / 2, 1 / 20] [1, 2]).getD 1 0 =
      (if (1 / 20 : ℚ) < 1 / 10 then 3 else 2) ∧
    ∀ us2 : List ℚ, 1 < us2.length → us2.getD 1 0 = (1 / 20 : ℚ) →
      (drop_labels (1 / 10) 3 us2 [1, 2]).getD 1 0 =
        (drop_labels (1 / 10) 3 [1 / 2, 1 / 20] [1, 2]).getD 1 0 :=
  C9_per_sample_label_drop (1 / 10) 3 [1 / 2, 1 / 20] [1, 2] 1 (by decide) (by decide)

/-- Claim C10: a negative integer `label_B` is silently mapped to the
unconditional index `num_classes` and broadcast to all `B` samples (var.py
line 169), so the conditional half of the guidance batch is itself
conditioned on the unconditional sentinel: the whole doubled class-embedding
input of line 171 is `2B` copies of `num_classes`, all valid indices of the
`num_classes + 1`-row embedding table (no error is raised). -/
theorem C10_negative_label_unconditional (m : VarModel) (B : Nat) (rng : Rng)
    (z : Int) (hz : z < 0) :
    (resolve_label m B rng (some (.inl z))).1 = List.replicate B m.num_classes ∧
    (resolve_label m B rng (some (.inl z))).2 = rng ∧
    cfg_cond_input m.num_classes (resolve_label m B rng (some (.inl z))).1 =
      List.replicate (B + B) m.num_classes ∧
    ∀ c ∈ cfg_cond_input m.num_classes (resolve_label m B rng (some (.inl z))).1,
      c < m.num_classes + 1 := by
  have h1 : (resolve_label m B rng (some (.inl z))).1 = List.replicate B m.num_classes := by
    simp [resolve_label, hz]
  refine ⟨h1, rfl, ?_, ?_⟩
  · rw [h1]
    unfold cfg_cond_input
    rw [List.length_replicate, ← List.replicate_add]
  · intro c hc
    rw [h1] at hc
    unfold cfg_cond_input at hc
    rw [List.length_replicate, ← List.replicate_add] at hc
    have := List.eq_of_mem_replicate hc
    omega

/-- Claim C10 witness: label `-2` with batch size 2 on the test model
(`num_classes = 3`). -/
theorem C10_witness :
    (resolve_label testModel 2 0 (some (.inl (-2)))).1 = List.replicate 2 3 ∧
    (resolve_label testModel 2 0 (some (.inl (-2)))).2 = 0 ∧
    cfg_cond_input 3 (resolve_label testModel 2 0 (some (.inl (-2)))).1 =
      List.replicate 4 3 ∧
    ∀ c ∈ cfg_cond_input 3 (resolve_label testModel 2 0 (some (.inl (-2)))).1,
      c < 4 :=
  C10_negative_label_unconditional testModel 2 0 (-2) (by decide)

theorem map_kv_caching (b : Bool) (l : List AttnCache) :
    l.map (kv_caching b) = List.replicate l.length ⟨b, []⟩ := by
  induction l with
  | nil => rfl
  | cons c cs ih => simp [kv_caching, ih, List.replicate_succ]

/-- Claim C5: a generation call with a supplied seed is fully determined by
the model and the call arguments: neither the ambient random state (used only
for unseeded calls) nor the incoming per-block cache contents (cleared by the
cache-enable step, so only the number of blocks matters) can change the
output — two seeded calls with identical arguments return identical
per-stage output lists. -/
theorem C5_seed_determinism (m : VarModel) (a : InferArgs) (s : Nat)
    (hs : a.g_seed = some s) (amb1 amb2 : Rng) (caches0 caches0' : List AttnCache)
    (hc : caches0.length = caches0'.length) :
    autoregressive_infer_cfg m a amb1 caches0 =
      autoregressive_infer_cfg m a amb2 caches0' := by
  unfold autoregressive_infer_cfg
  rw [hs]
  rw [map_kv_caching, map_kv_caching, hc]

/-- Claim C5 witness: on the test model, two seeded calls with different
ambient random states and different (same-length) stale caches coincide. -/
theorem C5_witness :
    autoregressive_infer_cfg testModel testArgs 3 [⟨true, [[1]]⟩] =
      autoregressive_infer_cfg testModel testArgs 5 [⟨false, []⟩] :=
  C5_seed_determinism testModel testArgs 7 rfl 3 5 _ _ rfl

theorem run_blocks_caches_length (blocks : List Block) :
    ∀ (caches : List AttnCache) (x : Ten3) (cond : Ten2)
      (bias : Option (List (List (List (List BiasVal))))),
      caches.length = blocks.length →
      ((run_blocks blocks caches x cond bias).2).length = blocks.length := by
  induction blocks with
  | nil =>
    intro caches x cond bias hc
    simpa [run_blocks] using hc
  | cons b bs ih =>
    intro caches x cond bias hc
    cases caches with
    | nil => simp at hc
    | cons c cs =>
      simp only [run_blocks, List.length_cons]
      rw [ih cs _ cond bias (by simpa using hc)]

theorem infer_step_caches (m : VarModel) (a : InferArgs) (cond lvl : Ten2)
    (st : LoopState) (sipn : Nat × Nat) :
    (infer_step m a cond lvl st sipn).caches =
      (run_blocks m.blocks st.caches st.cur_token_map (m.shared_ada_lin cond) none).2 := rfl

theorem infer_step_ret (m : VarModel) (a : InferArgs) (cond lvl : Ten2)
    (st : LoopState) (sipn : Nat × Nat) :
    ∃ out : StageOut, (infer_step m a cond lvl st sipn).ret = st.ret ++ [out] :=
  ⟨_, rfl⟩

theorem infer_step_trace (m : VarModel) (a : InferArgs) (cond lvl : Ten2)
    (st : LoopState) (sipn : Nat × Nat) :
    ∃ raw : Ten3, (infer_step m a cond lvl st sipn).trace = st.trace ++
      [⟨sipn.1, a.cfg * ((sipn.1 : ℚ) / (m.num_stages_minus_1 : ℚ)), raw,
        cfg_merge (a.cfg * ((sipn.1 : ℚ) / (m.num_stages_minus_1 : ℚ))) a.B raw⟩] :=
  ⟨_, rfl⟩

theorem foldl_caches_length (m : VarModel) (a : InferArgs) (cond lvl : Ten2)
    (l : List (Nat × Nat)) : ∀ st : LoopState,
    st.caches.length = m.blocks.length →
    ((l.foldl (infer_step m a cond lvl) st).caches).length = m.blocks.length := by
  induction l with
  | nil => intro st h; exact h
  | cons p rest ih =>
    intro st h
    simp only [List.foldl_cons]
    apply ih
    rw [infer_step_caches]
    exact run_blocks_caches_length m.blocks st.caches _ _ _ h

theorem foldl_ret_length (m : VarModel) (a : InferArgs) (cond lvl : Ten2)
    (l : List (Nat × Nat)) : ∀ st : LoopState,
    ((l.foldl (infer_step m a cond lvl) st).ret).length = st.ret.length + l.length := by
  induction l with
  | nil => intro st; simp
  | cons p rest ih =>
    intro st
    simp only [List.foldl_cons]
    rw [ih]
    obtain ⟨out, hout⟩ := infer_step_ret m a cond lvl st p
    rw [hout]
    simp
    omega

theorem foldl_trace_sis (m : VarModel) (a : InferArgs) (cond lvl : Ten2)
    (l : List (Nat × Nat)) : ∀ st : LoopState,
    ((l.foldl (infer_step m a cond lvl) st).trace).map StageTrace.si =
      st.trace.map StageTrace.si ++ l.map Prod.fst := by
  induction l with
  | nil => intro st; simp
  | cons p rest ih =>
    intro st
    simp only [List.foldl_cons]
    rw [ih]
    obtain ⟨raw, htr⟩ := infer_step_trace m a cond lvl st p
    rw [htr]
    simp

theorem foldl_trace_prop (m : VarModel) (a : InferArgs) (cond lvl : Ten2)
    (l : List (Nat × Nat)) : ∀ st : LoopState,
    (∀ e ∈ st.trace, e.t = a.cfg * ((e.si : ℚ) / (m.num_stages_minus_1 : ℚ)) ∧
      e.merged_logits = cfg_merge e.t a.B e.raw_logits) →
    ∀ e ∈ (l.foldl (infer_step m a cond lvl) st).trace,
      e.t = a.cfg * ((e.si : ℚ) / (m.num_stages_minus_1 : ℚ)) ∧
      e.merged_logits = cfg_merge e.t a.B e.raw_logits := by
  induction l with
  | nil => intro st h; exact h
  | cons p rest ih =>
    intro st h
    simp only [List.foldl_cons]
    apply ih
    intro e he
    obtain ⟨raw, htr⟩ := infer_step_trace m a cond lvl st p
    rw [htr] at he
    rcases List.mem_append.mp he with hin | hnew
    · exact h e hin
    · rcases List.mem_singleton.mp hnew with rfl
      exact ⟨rfl, rfl⟩

/-- Claim C6: every generation call enables key/value caching on every block
before the stage loop (the enable step turns the incoming cache states into
all-enabled, empty ones), disables and clears every block's cache after the
last stage (the returned cache states are all-disabled and empty, one per
block), and returns exactly one output entry per stage. -/
theorem C6_cache_lifecycle (m : VarModel) (a : InferArgs) (amb : Rng)
    (caches0 : List AttnCache) (hc : caches0.length = m.blocks.length) :
    caches0.map (kv_caching true) =
      List.replicate m.blocks.length ⟨true, []⟩ ∧
    (autoregressive_infer_cfg m a amb caches0).2.1 =
      List.replicate m.blocks.length ⟨false, []⟩ ∧
    (autoregressive_infer_cfg m a amb caches0).1.length = m.patch_nums.length := by
  refine ⟨?_, ?_, ?_⟩
  · rw [map_kv_caching, hc]
  · simp only [autoregressive_infer_cfg]
    rw [map_kv_caching]
    congr 1
    exact foldl_caches_length m a _ _ _ _ (by simp [hc])
  · simp only [autoregressive_infer_cfg]
    rw [foldl_ret_length]
    simp

/-- Claim C6 witness: on the test model with its single block. -/
theorem C6_witness :
    [⟨false, [[1]]⟩].map (kv_caching true) =
      List.replicate testModel.blocks.length ⟨true, []⟩ ∧
    (autoregressive_infer_cfg testModel testArgs 0 [⟨false, [[1]]⟩]).2.1 =
      List.replicate testModel.blocks.length ⟨false, []⟩ ∧
    (autoregressive_infer_cfg testModel testArgs 0 [⟨false, [[1]]⟩]).1.length =
      testModel.patch_nums.length :=
  C6_cache_lifecycle testModel testArgs 0 [⟨false, [[1]]⟩] rfl

theorem cfg_merge_entry (t : ℚ) (B : Nat) (lg : Ten3) (i p v : Nat)
    (hi : i < B) (hiB : B + i < lg.length)
    (hp1 : p < (lg.getD i []).length) (hp2 : p < (lg.getD (B + i) []).length)
    (hv1 : v < ((lg.getD i []).getD p []).length)
    (hv2 : v < ((lg.getD (B + i) []).getD p []).length) :
    (((cfg_merge t B lg).getD i []).getD p []).getD v 0 =
      (1 + t) * (((lg.getD i []).getD p []).getD v 0) -
        t * (((lg.getD (B + i) []).getD p []).getD v 0) := by
  have hiL : i < lg.length := by omega
  rw [List.getD_eq_getElem _ _ hiL] at hp1 hv1 ⊢
  rw [List.getD_eq_getElem _ _ hiB] at hp2 hv2 ⊢
  rw [List.getD_eq_getElem _ _ hp1] at hv1 ⊢
  rw [List.getD_eq_getElem _ _ hp2] at hv2 ⊢
  have houter : i < (cfg_merge t B lg).length := by
    simp only [cfg_merge, List.length_zipWith, List.length_take, List.length_drop]
    omega
  rw [List.getD_eq_getElem _ _ houter]
  simp only [cfg_merge] at houter ⊢
  rw [List.getElem_zipWith]
  have hti : i < (lg.take B).length := by
    simp only [List.length_take]
    omega
  have hdi : i < (lg.drop B).length := by
    simp only [List.length_drop]
    omega
  rw [List.getElem_take, List.getElem_drop]
  have hpz : p < (List.zipWith
      (fun cr ur => List.zipWith (fun x y => (1 + t) * x - t * y) cr ur)
      lg[i] lg[B + i]).length := by
    simp only [List.length_zipWith]
    omega
  rw [List.getD_eq_getElem _ _ hpz, List.getElem_zipWith]
  have hvz : v < (List.zipWith (fun x y => (1 + t) * x - t * y)
      lg[i][p] lg[B + i][p]).length := by
    simp only [List.length_zipWith]
    omega
  rw [List.getD_eq_getElem _ _ hvz, List.getElem_zipWith]
  rw [List.getD_eq_getElem _ _ hv1, List.getD_eq_getElem _ _ hv2]

/-- Claim C1: in every generation call with at least two stages, the traced
stage loop visits the stages in order `0, 1, ..., num_stages − 1`; at every
stage the guidance ratio is `t = cfg × (si / (num_stages − 1))`, recomputed at
that stage — so `t = 0` at the first stage and `t = cfg` at the last — and
every entry of the logits used for sampling equals
`(1+t) × (conditional-half entry, rows 0..B−1) − t × (unconditional-half
entry, rows B..2B−1)` of the raw two-half logits. -/
theorem C1_cfg_guidance (m : VarModel) (a : InferArgs) (amb : Rng)
    (caches0 : List AttnCache) (hn : 2 ≤ m.patch_nums.length) :
    ((autoregressive_infer_cfg m a amb caches0).2.2).map StageTrace.si =
      List.range m.patch_nums.length ∧
    ∀ e ∈ (autoregressive_infer_cfg m a amb caches0).2.2,
      e.t = a.cfg * ((e.si : ℚ) / ((m.patch_nums.length : ℚ) - 1)) ∧
      (e.si = 0 → e.t = 0) ∧
      (e.si = m.patch_nums.length - 1 → e.t = a.cfg) ∧
      ∀ i p v : Nat, i < a.B → a.B + i < e.raw_logits.length →
        p < (e.raw_logits.getD i []).length →
        p < (e.raw_logits.getD (a.B + i) []).length →
        v < ((e.raw_logits.getD i []).getD p []).length →
        v < ((e.raw_logits.getD (a.B + i) []).getD p []).length →
        ((e.merged_logits.getD i []).getD p []).getD v 0 =
          (1 + e.t) * (((e.raw_logits.getD i []).getD p []).getD v 0) -
            e.t * (((e.raw_logits.getD (a.B + i) []).getD p []).getD v 0) := by
  have h1 : (1 : ℕ) ≤ m.patch_nums.length := by omega
  have hcast : ((m.num_stages_minus_1 : ℕ) : ℚ) = (m.patch_nums.length : ℚ) - 1 := by
    unfold VarModel.num_stages_minus_1
    rw [Nat.cast_sub h1]
    simp
  constructor
  · simp only [autoregressive_infer_cfg]
    rw [foldl_trace_sis]
    simp [List.enum_map_fst]
  · intro e he
    simp only [autoregressive_infer_cfg] at he
    obtain ⟨ht, hm⟩ := foldl_trace_prop m a _ _ _ _ (by simp) e he
    refine ⟨by rw [ht, hcast], ?_, ?_, ?_⟩
    · intro h0
      rw [ht, h0]
      simp
    · intro hlast
      rw [ht, hlast, hcast]
      have hx : ((m.patch_nums.length : ℚ) - 1) ≠ 0 := by
        have h2 : (2 : ℚ) ≤ (m.patch_nums.length : ℚ) := by exact_mod_cast hn
        linarith
      rw [Nat.cast_sub h1]
      simp only [Nat.cast_one]
      rw [div_self hx, mul_one]
    · intro i p v hi hiB hp1 hp2 hv1 hv2
      rw [hm]
      exact cfg_merge_entry e.t a.B e.raw_logits i p v hi hiB hp1 hp2 hv1 hv2

/-- Claim C1 witness: the full guidance-schedule property instantiated on the
two-stage test model with `cfg = 3/2`. -/
theorem C1_witness :
    ((autoregressive_infer_cfg testModel testArgs 0 []).2.2).map StageTrace.si =
      List.range testModel.patch_nums.length ∧
    ∀ e ∈ (autoregressive_infer_cfg testModel testArgs 0 []).2.2,
      e.t = testArgs.cfg * ((e.si : ℚ) / ((testModel.patch_nums.length : ℚ) - 1)) ∧
      (e.si = 0 → e.t = 0) ∧
      (e.si = testModel.patch_nums.length - 1 → e.t = testArgs.cfg) ∧
      ∀ i p v : Nat, i < testArgs.B → testArgs.B + i < e.raw_logits.length →
        p < (e.raw_logits.getD i []).length →
        p < (e.raw_logits.getD (testArgs.B + i) []).length →
        v < ((e.raw_logits.getD i []).getD p []).length →
        v < ((e.raw_logits.getD (testArgs.B + i) []).getD p []).length →
        ((e.merged_logits.getD i []).getD p []).getD v 0 =
          (1 + e.t) * (((e.raw_logits.getD i []).getD p []).getD v 0) -
            e.t * (((e.raw_logits.getD (testArgs.B + i) []).getD p []).getD v 0) :=
  C1_cfg_guidance testModel testArgs 0 [] (by decide)

theorem sumPn2_take_le (pns : List Nat) (k : Nat) :
    sumPn2 (pns.take k) ≤ sumPn2 pns := by
  conv_rhs => rw [← List.take_append_drop k pns]
  rw [sumPn2_append]
  omega

theorem sumPn2_take_mono (pns : List Nat) (j k : Nat) (hjk : j ≤ k) :
    sumPn2 (pns.take j) ≤ sumPn2 (pns.take k) := by
  have h := sumPn2_take_le (pns.take k) j
  rwa [List.take_take, min_eq_left hjk] at h

theorem first_l_take (m : VarModel) : m.first_l = sumPn2 (m.patch_nums.take 1) := by
  unfold VarModel.first_l
  cases m.patch_nums with
  | nil => simp [sumPn2]
  | cons pn rest => simp [sumPn2]

theorem forward_ed_facts (m : VarModel) (bg ed : Nat)
    (hed : forward_ed m = some (bg, ed)) :
    m.first_l ≤ ed ∧ ed ≤ m.L ∧ (m.prog_si < 0 → ed = m.L) ∧
      (m.prog_si = 0 → ed = m.first_l) := by
  unfold forward_ed at hed
  by_cases hp : 0 ≤ m.prog_si
  · rw [if_pos hp] at hed
    obtain ⟨hlt, hget⟩ := List.getElem?_eq_some_iff.mp hed
    rw [begin_ends_length] at hlt
    have hbe := begin_ends_getD m.patch_nums m.prog_si.toNat hlt
    rw [List.getD_eq_getElem _ _ (by rw [begin_ends_length]; exact hlt), hget] at hbe
    have hedv : ed = sumPn2 (m.patch_nums.take (m.prog_si.toNat + 1)) := by
      have := congrArg Prod.snd hbe
      simpa using this
    refine ⟨?_, ?_, ?_, ?_⟩
    · rw [first_l_take, hedv]
      exact sumPn2_take_mono m.patch_nums 1 (m.prog_si.toNat + 1) (by omega)
    · rw [hedv]
      exact sumPn2_take_le m.patch_nums _
    · intro hneg; omega
    · intro h0
      rw [hedv, h0]
      simp [first_l_take]
  · rw [if_neg hp] at hed
    have hbg : bg = 0 ∧ ed = m.L := by
      have := Option.some.inj hed
      exact ⟨(congrArg Prod.fst this).symm, (congrArg Prod.snd this).symm⟩
    refine ⟨?_, le_of_eq hbg.2, fun _ => hbg.2, ?_⟩
    · rw [hbg.2, first_l_take]
      exact sumPn2_take_le m.patch_nums 1
    · intro h0; omega

theorem run_blocks_dims : ∀ (blocks : List Block) (caches : List AttnCache)
    (x : Ten3) (cond : Ten2) (bias : Option (List (List (List (List BiasVal))))),
    (∀ b ∈ blocks, DimPreserving b.fwd) →
    ((run_blocks blocks caches x cond bias).1).length = x.length ∧
      ∀ j, (((run_blocks blocks caches x cond bias).1).getD j []).length =
        (x.getD j []).length := by
  intro blocks
  induction blocks with
  | nil =>
    intro caches x cond bias _
    exact ⟨rfl, fun j => rfl⟩
  | cons b bs ih =>
    intro caches x cond bias hb
    cases caches with
    | nil => exact ⟨rfl, fun j => rfl⟩
    | cons c cs =>
      obtain ⟨hl1, hg1⟩ := hb b (List.mem_cons_self b bs) c x cond bias
      obtain ⟨hl2, hg2⟩ := ih cs (b.fwd c x cond bias).1 cond bias
        (fun b' hb' => hb b' (List.mem_cons_of_mem _ hb'))
      refine ⟨?_, ?_⟩
      · simp only [run_blocks]
        rw [hl2, hl1]
      · intro j
        simp only [run_blocks]
        rw [hg2 j, hg1 j]

theorem dims_mem_length (y x : Ten3) (hlen : y.length = x.length)
    (hget : ∀ j, (y.getD j []).length = (x.getD j []).length)
    (n : Nat) (hx : ∀ row ∈ x, row.length = n) : ∀ row ∈ y, row.length = n := by
  intro row hrow
  obtain ⟨j, hj, hrj⟩ := List.mem_iff_getElem.mp hrow
  have hjx : j < x.length := by omega
  have h1 : (y.getD j []).length = row.length := by
    rw [List.getD_eq_getElem _ _ hj, hrj]
  have h2 : (x.getD j []).length = row.length := by rw [← hget j]; exact h1
  rw [List.getD_eq_getElem _ _ hjx] at h2
  rw [← h2]
  exact hx x[j] (List.getElem_mem hjx)

theorem get_logits_dims (m : VarModel) (h : Ten3) (cond : Ten2) (tau : ℚ)
    (hnm : HeadNmDimPreserving m) (hhw : HeadWidth m) :
    (get_logits m h cond tau).length = h.length ∧
    (∀ j, ((get_logits m h cond tau).getD j []).length = (h.getD j []).length) ∧
    (∀ row ∈ get_logits m h cond tau, ∀ pv ∈ row, pv.length = m.V) := by
  refine ⟨?_, ?_, ?_⟩
  · simp [get_logits, (hnm h cond).1]
  · intro j
    by_cases hj : j < (m.head_nm h cond).length
    · have hj2 : j < (get_logits m h cond tau).length := by
        simpa [get_logits] using hj
      unfold get_logits at hj2 ⊢
      rw [List.getD_eq_getElem _ _ hj2]
      rw [List.getElem_map, List.getElem_map]
      rw [List.length_map, List.length_map]
      have := (hnm h cond).2 j
      rwa [List.getD_eq_getElem _ _ hj] at this
    · have hyl : (get_logits m h cond tau).length ≤ j := by
        simp only [get_logits, List.length_map]
        omega
      have hhl : h.length ≤ j := by
        rw [← (hnm h cond).1]
        omega
      rw [List.getD_eq_default _ _ hyl, List.getD_eq_default _ _ hhl]
  · intro row hrow pv hpv
    unfold get_logits at hrow
    obtain ⟨r1, hr1mem, hr1⟩ := List.mem_map.mp hrow
    rw [← hr1] at hpv
    obtain ⟨z, hzmem, hz⟩ := List.mem_map.mp hpv
    obtain ⟨y, hymem, hy⟩ := List.mem_map.mp hr1mem
    rw [← hy] at hzmem
    obtain ⟨w, hwmem, hw⟩ := List.mem_map.mp hzmem
    rw [← hz, ← hw]
    simp [hhw w]

theorem attn_bias_mat_row_length (pns : List Nat) :
    ∀ row ∈ attn_bias_mat pns, row.length = sumPn2 pns := by
  intro row hrow
  obtain ⟨dp, _, hr⟩ := List.mem_map.mp hrow
  rw [← hr]
  simp [lvl_1L_length]

theorem fw_cond_BD_length (m : VarModel) (us : List ℚ) (label_B : List Nat) :
    (fw_cond_BD m us label_B).length = min us.length label_B.length := by
  simp [fw_cond_BD, drop_labels]

theorem fw_sos_length (m : VarModel) (us : List ℚ) (label_B : List Nat) :
    (fw_sos m us label_B).length = min us.length label_B.length := by
  simp [fw_sos, fw_cond_BD_length]

theorem fw_sos_rows (m : VarModel) (us : List ℚ) (label_B : List Nat)
    (hps : m.pos_start.length = m.first_l) :
    ∀ row ∈ fw_sos m us label_B, row.length = m.first_l := by
  intro row hrow
  obtain ⟨s, _, hs⟩ := List.mem_map.mp hrow
  rw [← hs]
  simp [vecAdd, List.length_zipWith, hps]

theorem fw_xBLC_length (m : VarModel) (us : List ℚ) (label_B : List Nat)
    (x : Ten3) (hus : us.length = x.length) (hlb : label_B.length = x.length) :
    (fw_xBLC m us label_B x).length = x.length := by
  unfold fw_xBLC
  split
  · rw [fw_sos_length, hus, hlb, Nat.min_self]
  · simp [List.length_zipWith, fw_sos_length, hus, hlb]

theorem fw_xBLC_rows (m : VarModel) (us : List ℚ) (label_B : List Nat)
    (x : Ten3) (ed : Nat) (hps : m.pos_start.length = m.first_l)
    (hfl : m.first_l ≤ ed) (h0ed : m.prog_si = 0 → ed = m.first_l)
    (hx : m.prog_si = 0 ∨ ∀ row ∈ x, row.length = ed - m.first_l) :
    ∀ row ∈ fw_xBLC m us label_B x, row.length = ed := by
  intro row hrow
  unfold fw_xBLC at hrow
  by_cases hpz : m.prog_si = 0
  · rw [if_pos hpz] at hrow
    rw [fw_sos_rows m us label_B hps row hrow]
    exact (h0ed hpz).symm
  · rw [if_neg hpz] at hrow
    have hxr : ∀ r ∈ x, r.length = ed - m.first_l := by
      rcases hx with h | h
      · exact absurd h hpz
      · exact h
    obtain ⟨j, hj, hrj⟩ := List.mem_iff_getElem.mp hrow
    have hjs : j < (fw_sos m us label_B).length := by
      rw [List.length_zipWith] at hj
      omega
    have hjx : j < x.length := by
      rw [List.length_zipWith] at hj
      omega
    rw [List.getElem_zipWith] at hrj
    rw [← hrj]
    simp only [List.length_append, List.length_map]
    rw [fw_sos_rows m us label_B hps _ (List.getElem_mem hjs),
      hxr x[j] (List.getElem_mem hjx)]
    omega

theorem lvl_1L_length_L (m : VarModel) : (lvl_1L m.patch_nums).length = m.L := by
  unfold VarModel.L
  exact lvl_1L_length m.patch_nums

theorem fw_addend_length (m : VarModel) (ed : Nat)
    (hpl : m.pos_1LC.length = m.L) (hedL : ed ≤ m.L) :
    (fw_addend m ed).length = ed := by
  unfold fw_addend
  rw [List.length_zipWith, List.length_map, List.length_take, List.length_take,
    hpl, lvl_1L_length_L]
  omega

theorem fw_x1_length (m : VarModel) (us : List ℚ) (label_B : List Nat)
    (x : Ten3) (ed : Nat) (hus : us.length = x.length)
    (hlb : label_B.length = x.length) :
    (fw_x1 m us label_B x ed).length = x.length := by
  unfold fw_x1
  rw [List.length_map]
  exact fw_xBLC_length m us label_B x hus hlb

theorem fw_x1_rows (m : VarModel) (us : List ℚ) (label_B : List Nat)
    (x : Ten3) (ed : Nat) (hps : m.pos_start.length = m.first_l)
    (hfl : m.first_l ≤ ed) (h0ed : m.prog_si = 0 → ed = m.first_l)
    (hx : m.prog_si = 0 ∨ ∀ row ∈ x, row.length = ed - m.first_l)
    (hpl : m.pos_1LC.length = m.L) (hedL : ed ≤ m.L) :
    ∀ row ∈ fw_x1 m us label_B x ed, row.length = ed := by
  intro row hrow
  obtain ⟨r, hr, hrr⟩ := List.mem_map.mp hrow
  rw [← hrr, List.length_zipWith, fw_addend_length m ed hpl hedL,
    fw_xBLC_rows m us label_B x ed hps hfl h0ed hx r hr, Nat.min_self]

theorem fw_bias_shape (m : VarModel) (ed : Nat) (hedL : ed ≤ m.L) :
    (((fw_bias m ed).getD 0 []).getD 0 []).length = ed ∧
    ∀ r2 ∈ ((fw_bias m ed).getD 0 []).getD 0 [], r2.length = ed := by
  have hedL' : ed ≤ sumPn2 m.patch_nums := hedL
  constructor
  · show (((attn_bias_mat m.patch_nums).take ed).map fun r2 => r2.take ed).length = ed
    rw [List.length_map, List.length_take]
    have hmat : (attn_bias_mat m.patch_nums).length = sumPn2 m.patch_nums := by
      simp [attn_bias_mat, lvl_1L_length]
    rw [hmat]
    omega
  · intro r2 hr2
    have hr2' : r2 ∈ ((attn_bias_mat m.patch_nums).take ed).map fun r0 => r0.take ed := hr2
    obtain ⟨r0, hr0, hh⟩ := List.mem_map.mp hr2'
    have hr0m : r0 ∈ attn_bias_mat m.patch_nums := List.mem_of_mem_take hr0
    have hr0l : r0.length = sumPn2 m.patch_nums :=
      attn_bias_mat_row_length m.patch_nums r0 hr0m
    rw [← hh, List.length_take, hr0l]
    omega

/-- Claim C2: a teacher-forcing forward call builds the training token map at
exactly the positions `[0, ed)` — `ed = L` when progressive training is off
(`prog_si < 0`), `ed` = the end of stage `prog_si` otherwise — slices the
precomputed attention bias to `[:ed, :ed]` before handing it to the blocks,
and returns logits of shape `(B, ed, V)`; with `prog_si = 0` this means shape
`(B, first_l, V)`.  The shape hypotheses are the fatal broadcast
preconditions of the call. -/
theorem C2_forward_shapes (m : VarModel) (label_B : List Nat) (us : List ℚ)
    (x : Ten3) (caches0 : List AttnCache) (bg ed : Nat)
    (hed : forward_ed m = some (bg, ed))
    (hblocks : ∀ b ∈ m.blocks, DimPreserving b.fwd)
    (hnm : HeadNmDimPreserving m) (hhw : HeadWidth m)
    (hps : m.pos_start.length = m.first_l)
    (hpl : m.pos_1LC.length = m.L)
    (hus : us.length = x.length) (hlb : label_B.length = x.length)
    (hx : m.prog_si = 0 ∨ ∀ row ∈ x, row.length = ed - m.first_l) :
    (m.forward label_B us x caches0).isSome = true ∧
    (∀ out, m.forward label_B us x caches0 = some out →
      out.logits.length = x.length ∧
      (∀ row ∈ out.logits, row.length = ed) ∧
      (∀ row ∈ out.logits, ∀ pv ∈ row, pv.length = m.V) ∧
      out.attn_bias_used = fw_bias m ed ∧
      ((out.attn_bias_used.getD 0 []).getD 0 []).length = ed ∧
      (∀ r2 ∈ (out.attn_bias_used.getD 0 []).getD 0 [], r2.length = ed)) ∧
    (m.prog_si < 0 → ed = m.L) ∧ (m.prog_si = 0 → ed = m.first_l) := by
  obtain ⟨hfl, hedL, hneg, h00⟩ := forward_ed_facts m bg ed hed
  have hall : ((fw_xBLC m us label_B x).all fun row => row.length = ed) = true := by
    rw [List.all_eq_true]
    intro row hrow
    exact decide_eq_true (fw_xBLC_rows m us label_B x ed hps hfl h00 hx row hrow)
  have hcore : forward_core m label_B us x caches0 =
      some ⟨get_logits m (run_blocks m.blocks caches0 (fw_x1 m us label_B x ed)
          (m.shared_ada_lin (fw_cond_BD m us label_B)) (some (fw_bias m ed))).1
        (fw_cond_BD m us label_B) 1, fw_bias m ed,
        (run_blocks m.blocks caches0 (fw_x1 m us label_B x ed)
          (m.shared_ada_lin (fw_cond_BD m us label_B)) (some (fw_bias m ed))).2⟩ := by
    unfold forward_core
    rw [hed]
    dsimp only
    rw [if_pos ⟨hus, hlb⟩, if_pos hall]
  have hfull : m.forward label_B us x caches0 =
      some ⟨get_logits m (run_blocks m.blocks caches0 (fw_x1 m us label_B x ed)
          (m.shared_ada_lin (fw_cond_BD m us label_B)) (some (fw_bias m ed))).1
        (fw_cond_BD m us label_B) 1, fw_bias m ed,
        (run_blocks m.blocks caches0 (fw_x1 m us label_B x ed)
          (m.shared_ada_lin (fw_cond_BD m us label_B)) (some (fw_bias m ed))).2⟩ := by
    unfold VarModel.forward
    rw [hcore]
    by_cases hpz : m.prog_si = 0
    · simp [hpz, keepalive_add_eq]
    · simp [hpz]
  refine ⟨by rw [hfull]; rfl, ?_, hneg, h00⟩
  intro out hout
  rw [hfull] at hout
  have hA := Option.some.inj hout
  rw [← hA]
  dsimp only
  have hgl := get_logits_dims m (run_blocks m.blocks caches0 (fw_x1 m us label_B x ed)
    (m.shared_ada_lin (fw_cond_BD m us label_B)) (some (fw_bias m ed))).1
    (fw_cond_BD m us label_B) 1 hnm hhw
  have hrb := run_blocks_dims m.blocks caches0 (fw_x1 m us label_B x ed)
    (m.shared_ada_lin (fw_cond_BD m us label_B)) (some (fw_bias m ed)) hblocks
  refine ⟨?_, ?_, hgl.2.2, rfl, (fw_bias_shape m ed hedL).1, (fw_bias_shape m ed hedL).2⟩
  · rw [hgl.1, hrb.1]
    exact fw_x1_length m us label_B x ed hus hlb
  · refine dims_mem_length _ _ hgl.1 hgl.2.1 ed ?_
    refine dims_mem_length _ _ hrb.1 hrb.2 ed ?_
    exact fw_x1_rows m us label_B x ed hps hfl h00 hx hpl hedL

/-- Claim C2 witness: on the test model (`prog_si = 0`, `first_l = 1`,
`V = 2`), the forward call succeeds and its logits have shape `(1, 1, 2)`. -/
theorem C2_witness :
    (testModel.forward [1] [1 / 2] [[]] [⟨false, []⟩]).isSome = true ∧
    (∀ out, testModel.forward [1] [1 / 2] [[]] [⟨false, []⟩] = some out →
      out.logits.length = ([[]] : Ten3).length ∧
      (∀ row ∈ out.logits, row.length = 1) ∧
      (∀ row ∈ out.logits, ∀ pv ∈ row, pv.length = testModel.V) ∧
      out.attn_bias_used = fw_bias testModel 1 ∧
      ((out.attn_bias_used.getD 0 []).getD 0 []).length = 1 ∧
      (∀ r2 ∈ (out.attn_bias_used.getD 0 []).getD 0 [], r2.length = 1)) ∧
    (testModel.prog_si < 0 → 1 = testModel.L) ∧
    (testModel.prog_si = 0 → 1 = testModel.first_l) :=
  C2_forward_shapes testModel [1] [1 / 2] [[]] [⟨false, []⟩] 0 1 (by decide)
    (by
      intro b hb c x2 cond bias
      have hb' : b = ⟨fun c x _ _ => (x, c)⟩ := by
        simpa [testModel] using hb
      subst hb'
      exact ⟨rfl, fun j => rfl⟩)
    (fun h cond => ⟨rfl, fun j => rfl⟩) (fun v => rfl) rfl rfl rfl rfl (Or.inl rfl)
